import Mathlib

/-!
Verification of the question-answering training harness in
`code/abstract_model.py` (class `Qa_model`).

The Python code is shallowly embedded below.  Numpy arrays become Lean
lists, Python ints become `Int` (or `Nat` where the source value is an
index produced by `argmax`), Python floats become `ℚ` (all the float
arithmetic in the metric functions is exact rational arithmetic on
0/1-valued vectors and their sums), and code that can raise an exception
returns an `Option` (`none` models the raised exception).
-/

/-- Embedding of the body of `Qa_model.read_and_pad` (the per-line padding
and masking transform applied after the file's lines have been split into
integer ids): `line = line[:length]`, `add_length = length - len(line)`,
`mask = [True]*len(line) + add_length*[False]`,
`line = line + add_length*[pad_value]`.  The file reading and whitespace
splitting are I/O; the function receives the already-split id lines. -/
def read_and_pad (lines : List (List Int)) (length : Nat) (pad_value : Int) :
    List (List Int) × List (List Bool) :=
  (lines.map (fun line =>
      line.take length ++ List.replicate (length - (line.take length).length) pad_value),
   lines.map (fun line =>
      List.replicate (line.take length).length true ++
      List.replicate (length - (line.take length).length) false))

/-- Resolution of a Python/numpy integer index into an array of length `L`
for item assignment `a[i] = v`: an index in `[0, L)` is used as is, an
index in `[-L, -1]` silently wraps to `L + i`, anything else raises
`IndexError` (modelled as `none`). -/
def npSetIndex (L : Nat) (i : Int) : Option Nat :=
  if 0 ≤ i ∧ i < (L : Int) then some i.toNat
  else if -(L : Int) ≤ i ∧ i < 0 then some ((L : Int) + i).toNat
  else none

/-- The vector built by `np.zeros(L)` followed by the assignment
`label[j] = 1` at resolved (nonnegative) position `j`. -/
def oneHotRow (L j : Nat) : List Int :=
  (List.range L).map (fun k => if k = j then 1 else 0)

/-- One row of `Qa_model.span_to_y`'s output: `label = np.zeros(max_length)`
followed by `label[i] = 1`, with numpy's index semantics. -/
def one_hot (L : Nat) (i : Int) : Option (List Int) :=
  (npSetIndex L i).map (oneHotRow L)

/-- Embedding of `Qa_model.span_to_y`: each row of `y` holds two ints
`start_id` and `end_id`; each is one-hot encoded into a vector of length
`max_length`.  `none` models the `IndexError` numpy raises when an index
falls outside `[-max_length, max_length)`. -/
def span_to_y (max_length : Nat) (y : List (Int × Int)) :
    Option (List (List Int) × List (List Int)) := do
  let S ← y.mapM (fun p => one_hot max_length p.1)
  let E ← y.mapM (fun p => one_hot max_length p.2)
  pure (S, E)

/-!  Basic lemmas about the padding transform.  -/

theorem take_eq_take_min (l : List α) (L : Nat) : l.take L = l.take (min l.length L) := by
  rcases Nat.le_total L l.length with h | h
  · rw [Nat.min_eq_right h]
  · rw [Nat.min_eq_left h, List.take_length, List.take_of_length_le h]

theorem length_take_min (l : List α) (L : Nat) : (l.take L).length = min l.length L := by
  rw [List.length_take, Nat.min_comm]

theorem map_eq_replicate {α β : Type} {f : α → β} {c : β} (l : List α)
    (h : ∀ x ∈ l, f x = c) : l.map f = List.replicate l.length c := by
  induction l with
  | nil => rfl
  | cons x xs ih =>
      simp only [List.map_cons, List.length_cons, List.replicate_succ]
      rw [h x (by simp), ih fun y hy => h y (by simp [hy])]

/-- Claim C2: for every input of whitespace-separated integer-id lines,
target length `L` and pad value `P`, `read_and_pad` returns two arrays of
shape `(num_lines, L)`; each id row is the line's first `min k L` ids
followed by `L - min k L` copies of `P`, and the mask row is `true`
exactly on the first `min k L` positions; a line longer than `L` is
silently truncated, an empty line yields a fully padded row with an
all-false mask, and the reference fixture (lines of lengths 3, 6, 2,
`L = 5`, `P = -1`) produces exactly the reference rows and masks. -/
theorem read_and_pad_spec (lines : List (List Int)) (L : Nat) (P : Int) :
    (read_and_pad lines L P).1 =
      lines.map (fun l => l.take (min l.length L) ++ List.replicate (L - min l.length L) P) ∧
    (read_and_pad lines L P).2 =
      lines.map (fun l => List.replicate (min l.length L) true ++
        List.replicate (L - min l.length L) false) ∧
    (read_and_pad lines L P).1.length = lines.length ∧
    (read_and_pad lines L P).2.length = lines.length ∧
    (read_and_pad lines L P).1.map List.length = List.replicate lines.length L ∧
    (read_and_pad lines L P).2.map List.length = List.replicate lines.length L ∧
    read_and_pad [[]] L P = ([List.replicate L P], [List.replicate L false]) ∧
    read_and_pad [[0, 1, 2], [0, 1, 0, 1, 0, 1], [2, 1]] 5 (-1) =
      ([[0, 1, 2, -1, -1], [0, 1, 0, 1, 0], [2, 1, -1, -1, -1]],
       [[true, true, true, false, false],
        [true, true, true, true, true],
        [true, true, false, false, false]]) := by
  refine ⟨?_, ?_, ?_, ?_, ?_, ?_, ?_, ?_⟩
  · exact List.map_congr_left fun l _ => by
      rw [length_take_min, ← take_eq_take_min]
  · exact List.map_congr_left fun l _ => by
      rw [length_take_min]
  · simp [read_and_pad]
  · simp [read_and_pad]
  · simp only [read_and_pad, List.map_map]
    refine map_eq_replicate lines fun l _ => ?_
    simp only [Function.comp_apply, List.length_append, List.length_replicate,
      length_take_min]
    omega
  · simp only [read_and_pad, List.map_map]
    refine map_eq_replicate lines fun l _ => ?_
    simp only [Function.comp_apply, List.length_append, List.length_replicate,
      length_take_min]
    omega
  · simp [read_and_pad]
  · decide

/-!  `np.argmax`: index of the first occurrence of the maximum value.  -/

/-- Scanning helper for `npArgmax`: `xs` are the remaining entries, `i` the
index of the first of them, `b` the index of the best value seen so far and
`v` that value; a strictly larger entry replaces the current best. -/
def argmaxAux : List Int → Nat → Nat → Int → Nat
  | [], _, b, _ => b
  | x :: xs, i, b, v => if v < x then argmaxAux xs (i + 1) i x else argmaxAux xs (i + 1) b v

/-- Embedding of `np.argmax` on a one-dimensional integer array: the index
of the first occurrence of the maximal entry (`0` on the empty array). -/
def npArgmax : List Int → Nat
  | [] => 0
  | x :: xs => argmaxAux xs 1 0 x

theorem argmaxAux_all_le :
    ∀ (xs : List Int) (i b : Nat) (v : Int), (∀ x ∈ xs, x ≤ v) → argmaxAux xs i b v = b := by
  intro xs
  induction xs with
  | nil => intro i b v _; rfl
  | cons x xs ih =>
      intro i b v h
      unfold argmaxAux
      rw [if_neg (not_lt.2 (h x (by simp)))]
      exact ih _ _ _ fun y hy => h y (by simp [hy])

theorem oneHotRow_succ_zero (L : Nat) : oneHotRow (L + 1) 0 = 1 :: List.replicate L 0 := by
  simp only [oneHotRow, List.range_succ_eq_map, List.map_cons, List.map_map]
  rw [show ((fun k => if k = 0 then (1 : Int) else 0) ∘ Nat.succ) = fun _ => (0 : Int) from
    funext fun k => by simp]
  rw [List.map_const', List.length_range]
  simp

theorem oneHotRow_succ_succ (L j : Nat) : oneHotRow (L + 1) (j + 1) = 0 :: oneHotRow L j := by
  simp only [oneHotRow, List.range_succ_eq_map, List.map_cons, List.map_map]
  rw [if_neg (Nat.succ_ne_zero j).symm]
  rw [show ((fun k => if k = j + 1 then (1 : Int) else 0) ∘ Nat.succ) =
      fun k => if k = j then (1 : Int) else 0 from
    funext fun k => by simp [Nat.succ_inj]]

theorem argmaxAux_oneHotRow :
    ∀ (L j i b : Nat), j < L → argmaxAux (oneHotRow L j) i b 0 = i + j := by
  intro L
  induction L with
  | zero => intro j i b h; omega
  | succ m ih =>
      intro j i b h
      cases j with
      | zero =>
          rw [oneHotRow_succ_zero]
          unfold argmaxAux
          rw [if_pos (by norm_num)]
          rw [argmaxAux_all_le _ _ _ _ fun x hx => by
            rw [List.eq_of_mem_replicate hx]; norm_num]
          omega
      | succ j' =>
          rw [oneHotRow_succ_succ]
          unfold argmaxAux
          rw [if_neg (lt_irrefl 0), ih j' (i + 1) b (by omega)]
          omega

theorem npArgmax_oneHotRow (L j : Nat) (h : j < L) : npArgmax (oneHotRow L j) = j := by
  cases L with
  | zero => omega
  | succ m =>
      cases j with
      | zero =>
          rw [oneHotRow_succ_zero]
          simp only [npArgmax]
          exact argmaxAux_all_le _ _ _ _ fun x hx => by
            rw [List.eq_of_mem_replicate hx]; norm_num
      | succ j' =>
          rw [oneHotRow_succ_succ]
          simp only [npArgmax]
          rw [argmaxAux_oneHotRow m j' 1 0 (by omega)]
          omega

theorem sum_oneHotRow_of_ge : ∀ (L j : Nat), L ≤ j → (oneHotRow L j).sum = 0 := by
  intro L
  induction L with
  | zero => intro j _; rfl
  | succ m ih =>
      intro j h
      rw [oneHotRow, List.range_succ, List.map_append, List.sum_append]
      have h1 : (oneHotRow m j).sum = 0 := ih j (by omega)
      rw [oneHotRow] at h1
      rw [h1]
      simp only [List.map_cons, List.map_nil, List.sum_cons, List.sum_nil]
      rw [if_neg (by omega)]
      rfl

theorem sum_oneHotRow : ∀ (L j : Nat), j < L → (oneHotRow L j).sum = 1 := by
  intro L
  induction L with
  | zero => intro j h; omega
  | succ m ih =>
      intro j h
      rw [oneHotRow, List.range_succ, List.map_append, List.sum_append]
      rcases Nat.lt_or_ge j m with hj | hj
      · have h1 := ih j hj
        rw [oneHotRow] at h1
        rw [h1]
        simp only [List.map_cons, List.map_nil, List.sum_cons, List.sum_nil]
        rw [if_neg (by omega)]
        rfl
      · have hjm : j = m := by omega
        have h1 := sum_oneHotRow_of_ge m j (by omega)
        rw [oneHotRow] at h1
        rw [h1]
        simp only [List.map_cons, List.map_nil, List.sum_cons, List.sum_nil]
        rw [if_pos hjm.symm]
        rfl

theorem getD_oneHotRow (L j k : Nat) (h : k < L) :
    (oneHotRow L j).getD k 0 = if k = j then 1 else 0 := by
  rw [oneHotRow, List.getD_eq_getElem?_getD, List.getElem?_map, List.getElem?_range h]
  rfl

theorem mapM_eq_some_map {α β : Type} (f : α → Option β) (g : α → β) :
    ∀ l : List α, (∀ x ∈ l, f x = some (g x)) → l.mapM f = some (l.map g) := by
  intro l
  induction l with
  | nil => intro _; rfl
  | cons x xs ih =>
      intro h
      rw [List.mapM_cons, h x (by simp), ih fun y hy => h y (by simp [hy])]
      rfl

theorem one_hot_of_nonneg (L : Nat) (i : Int) (h0 : 0 ≤ i) (hL : i < (L : Int)) :
    one_hot L i = some (oneHotRow L i.toNat) := by
  rw [one_hot, npSetIndex, if_pos ⟨h0, hL⟩]
  rfl

theorem one_hot_of_neg (L : Nat) (i : Int) (h0 : -(L : Int) ≤ i) (hL : i < 0) :
    one_hot L i = some (oneHotRow L ((L : Int) + i).toNat) := by
  rw [one_hot, npSetIndex, if_neg (by omega), if_pos ⟨h0, hL⟩]
  rfl

/-- Claim C6: for every array of `(start, end)` pairs with
`0 ≤ start < L` and `0 ≤ end < L`, `span_to_y` succeeds; each start row is
one-hot with the `1` exactly at index `start` and `0` elsewhere, each end
row one-hot at `end`, each pair of output rows sums to exactly `2`, and
`np.argmax` of each row recovers the original start and end; the fixture
spans `[[1,2],[2,4],[1,1],[0,0]]` with `L = 5` produce exactly the
reference one-hot rows asserted by `test_preprocessing_units`. -/
theorem span_to_y_valid_spec (L : Nat) (y : List (Int × Int))
    (hv : ∀ p ∈ y, 0 ≤ p.1 ∧ p.1 < (L : Int) ∧ 0 ≤ p.2 ∧ p.2 < (L : Int)) :
    span_to_y L y = some (y.map (fun p => oneHotRow L p.1.toNat),
                          y.map (fun p => oneHotRow L p.2.toNat)) ∧
    (∀ p ∈ y,
      (oneHotRow L p.1.toNat).sum = 1 ∧
      (oneHotRow L p.2.toNat).sum = 1 ∧
      (oneHotRow L p.1.toNat).sum + (oneHotRow L p.2.toNat).sum = 2 ∧
      npArgmax (oneHotRow L p.1.toNat) = p.1.toNat ∧
      npArgmax (oneHotRow L p.2.toNat) = p.2.toNat ∧
      (∀ k, k < L → (oneHotRow L p.1.toNat).getD k 0 = if k = p.1.toNat then 1 else 0) ∧
      (∀ k, k < L → (oneHotRow L p.2.toNat).getD k 0 = if k = p.2.toNat then 1 else 0)) ∧
    span_to_y 5 [(1, 2), (2, 4), (1, 1), (0, 0)] =
      some ([[0, 1, 0, 0, 0], [0, 0, 1, 0, 0], [0, 1, 0, 0, 0], [1, 0, 0, 0, 0]],
            [[0, 0, 1, 0, 0], [0, 0, 0, 0, 1], [0, 1, 0, 0, 0], [1, 0, 0, 0, 0]]) := by
  have hS : ∀ p ∈ y, one_hot L p.1 = some (oneHotRow L p.1.toNat) := fun p hp =>
    one_hot_of_nonneg L p.1 (hv p hp).1 (hv p hp).2.1
  have hE : ∀ p ∈ y, one_hot L p.2 = some (oneHotRow L p.2.toNat) := fun p hp =>
    one_hot_of_nonneg L p.2 (hv p hp).2.2.1 (hv p hp).2.2.2
  refine ⟨?_, ?_, ?_⟩
  · rw [span_to_y, mapM_eq_some_map _ _ y hS, mapM_eq_some_map _ _ y hE]
    rfl
  · intro p hp
    have h1 : p.1.toNat < L := by have := hv p hp; omega
    have h2 : p.2.toNat < L := by have := hv p hp; omega
    refine ⟨sum_oneHotRow L _ h1, sum_oneHotRow L _ h2, ?_,
      npArgmax_oneHotRow L _ h1, npArgmax_oneHotRow L _ h2,
      fun k hk => getD_oneHotRow L _ k hk, fun k hk => getD_oneHotRow L _ k hk⟩
    rw [sum_oneHotRow L _ h1, sum_oneHotRow L _ h2]
    decide
  · decide

theorem span_to_y_valid_spec_witness :
    (∀ p ∈ ([(1, 2), (2, 4), (1, 1), (0, 0)] : List (Int × Int)),
        0 ≤ p.1 ∧ p.1 < (5 : Int) ∧ 0 ≤ p.2 ∧ p.2 < (5 : Int)) ∧
    span_to_y 5 [(1, 2), (2, 4), (1, 1), (0, 0)] =
      some ([[0, 1, 0, 0, 0], [0, 0, 1, 0, 0], [0, 1, 0, 0, 0], [1, 0, 0, 0, 0]],
            [[0, 0, 1, 0, 0], [0, 0, 0, 0, 1], [0, 1, 0, 0, 0], [1, 0, 0, 0, 0]]) :=
  ⟨by decide,
   (span_to_y_valid_spec 5 [(1, 2), (2, 4), (1, 1), (0, 0)] (by decide)).2.2⟩

/-- Claim C9: for every span pair whose entries lie in `[-L, L)`,
`span_to_y` raises no error, and a negative index `i ∈ [-L, -1]` places
the `1` of its one-hot vector at position `L + i`, counted from the end
of the vector, instead of being rejected. -/
theorem span_to_y_negative_wrap (L : Nat) (y : List (Int × Int))
    (hv : ∀ p ∈ y, -(L : Int) ≤ p.1 ∧ p.1 < (L : Int) ∧
                   -(L : Int) ≤ p.2 ∧ p.2 < (L : Int)) :
    span_to_y L y = some
      (y.map (fun p => oneHotRow L (if p.1 < 0 then ((L : Int) + p.1).toNat else p.1.toNat)),
       y.map (fun p => oneHotRow L (if p.2 < 0 then ((L : Int) + p.2).toNat else p.2.toNat))) ∧
    ∀ p ∈ y, p.1 < 0 →
      ((L : Int) + p.1).toNat < L ∧
      (oneHotRow L ((L : Int) + p.1).toNat).getD ((L : Int) + p.1).toNat 0 = 1 := by
  have hS : ∀ p ∈ y, one_hot L p.1 =
      some (oneHotRow L (if p.1 < 0 then ((L : Int) + p.1).toNat else p.1.toNat)) := by
    intro p hp
    rcases lt_or_ge p.1 0 with h | h
    · rw [if_pos h]
      exact one_hot_of_neg L p.1 (hv p hp).1 h
    · rw [if_neg (not_lt.2 h)]
      exact one_hot_of_nonneg L p.1 h (hv p hp).2.1
  have hE : ∀ p ∈ y, one_hot L p.2 =
      some (oneHotRow L (if p.2 < 0 then ((L : Int) + p.2).toNat else p.2.toNat)) := by
    intro p hp
    rcases lt_or_ge p.2 0 with h | h
    · rw [if_pos h]
      exact one_hot_of_neg L p.2 (hv p hp).2.2.1 h
    · rw [if_neg (not_lt.2 h)]
      exact one_hot_of_nonneg L p.2 h (hv p hp).2.2.2
  constructor
  · rw [span_to_y, mapM_eq_some_map _ _ y hS, mapM_eq_some_map _ _ y hE]
    rfl
  · intro p hp hneg
    have hlt : ((L : Int) + p.1).toNat < L := by have := hv p hp; omega
    exact ⟨hlt, by rw [getD_oneHotRow L _ _ hlt, if_pos rfl]⟩

theorem span_to_y_negative_wrap_witness :
    (∀ p ∈ ([(-1, -5), (2, -3)] : List (Int × Int)),
        -(5 : Int) ≤ p.1 ∧ p.1 < (5 : Int) ∧ -(5 : Int) ≤ p.2 ∧ p.2 < (5 : Int)) ∧
    span_to_y 5 [(-1, -5), (2, -3)] =
      some ([[0, 0, 0, 0, 1], [0, 0, 1, 0, 0]],
            [[1, 0, 0, 0, 0], [0, 0, 1, 0, 0]]) :=
  ⟨by decide, by
    have h := (span_to_y_negative_wrap 5 [(-1, -5), (2, -3)] (by decide)).1
    rw [h]
    decide⟩

/-- Claim C4: the code performs no explicit validation of span indices.
At the failing input `L = 5`, span `(-1, 0)`, the encoder does not abort:
it silently wraps the negative start to position `4` and returns a
corrupted one-hot pair, while only indices outside `[-L, L)` happen to
raise numpy's `IndexError` (modelled by `none`). -/
theorem span_to_y_missing_validation :
    span_to_y 5 [(-1, 0)] = some ([[0, 0, 0, 0, 1]], [[1, 0, 0, 0, 0]]) ∧
    span_to_y 5 [(5, 0)] = none ∧
    span_to_y 5 [(-6, 0)] = none := by
  decide

/-!  Evaluation metrics `get_f1` and `get_exact_match`.  -/

/-- The gold coverage vector of `Qa_model.get_f1`: `y = np.zeros(max_c_length)`
followed by the slice assignment `y[s:e + 1] = 1`, i.e. positions
`s ≤ i ≤ e` (clamped to the vector length) are `1`. -/
def spanVec (L s e : Nat) : List ℚ :=
  (List.range L).map (fun i => if s ≤ i ∧ i ≤ e then 1 else 0)

/-- The predicted coverage vector of `Qa_model.get_f1`:
`yp[ypS:ypE + 1] = 1` followed by `yp[ypE:ypS + 1] = 1`, marking the
predicted span in both directions. -/
def predVec (L ps pe : Nat) : List ℚ :=
  (List.range L).map (fun i => if ps ≤ i ∧ i ≤ pe ∨ pe ≤ i ∧ i ≤ ps then 1 else 0)

/-- One loop iteration of `Qa_model.get_f1`: gold span decoded with
`np.argmax`, coverage vectors built, and the per-sample F1 contribution
computed (0 when the intersection is empty, otherwise the harmonic mean
of precision and recall). -/
def f1_sample (L : Nat) (gS gE : List Int) (ps pe : Nat) : ℚ :=
  let y := spanVec L (npArgmax gS) (npArgmax gE)
  let yp := predVec L ps pe
  let n_true_pos := (List.zipWith (fun a b => a * b) y yp).sum
  let n_pred_pos := yp.sum
  let n_actual_pos := y.sum
  if n_true_pos = 0 then 0
  else (2 * (n_true_pos / n_pred_pos) * (n_true_pos / n_actual_pos)) /
       (n_true_pos / n_pred_pos + n_true_pos / n_actual_pos)

/-- Embedding of `Qa_model.get_f1`: sums the per-sample contributions over
`range(len(yS))` and divides by `len(yS)`.  The final
`f1_tot /= len(yS)` raises `ZeroDivisionError` when `len(yS) = 0`,
modelled by `none`.  The `mask` argument is accepted and never used,
exactly as in the source. -/
def get_f1 (L : Nat) (yS yE : List (List Int)) (ypS ypE : List Nat)
    (mask : List (List Bool)) : Option ℚ :=
  if yS.length = 0 then none
  else some (((List.range yS.length).map (fun i =>
      f1_sample L (yS.getD i []) (yE.getD i []) (ypS.getD i 0) (ypE.getD i 0))).sum
    / (yS.length : ℚ))

/-- Embedding of `Qa_model.get_exact_match`: counts the samples whose
gold argmax start and end both equal the predicted indices, and divides
by `len(yS)`; `count / float(len(yS))` raises `ZeroDivisionError` when
`len(yS) = 0`, modelled by `none`.  The `mask` argument is accepted and
never used, exactly as in the source. -/
def get_exact_match (yS yE : List (List Int)) (ypS ypE : List Nat)
    (mask : List (List Bool)) : Option ℚ :=
  if yS.length = 0 then none
  else some ((((List.range yS.length).countP (fun i =>
      npArgmax (yS.getD i []) == ypS.getD i 0 &&
      (npArgmax (yE.getD i []) == ypE.getD i 0))) : ℚ) / (yS.length : ℚ))

/-- Claim C3 (code bug): the two metric functions have no zero-sample
guard.  Evaluating them on empty gold arrays reaches the unguarded
division `f1_tot /= len(yS)` resp. `count / float(len(yS))` and raises
`ZeroDivisionError` (`none`), rather than signalling an undefined/NaN
result without an exception as the specification demands. -/
theorem metrics_zero_samples_raise (L : Nat) (mask : List (List Bool)) :
    get_f1 L [] [] [] [] mask = none ∧ get_exact_match [] [] [] [] mask = none :=
  ⟨rfl, rfl⟩

theorem predVec_swap (L ps pe : Nat) : predVec L ps pe = predVec L pe ps := by
  unfold predVec
  refine List.map_congr_left fun i _ => ?_
  by_cases h : ps ≤ i ∧ i ≤ pe ∨ pe ≤ i ∧ i ≤ ps
  · rw [if_pos h, if_pos h.symm]
  · rw [if_neg h, if_neg fun hc => h hc.symm]

theorem f1_sample_swap (L : Nat) (gS gE : List Int) (ps pe : Nat) :
    f1_sample L gS gE ps pe = f1_sample L gS gE pe ps := by
  unfold f1_sample
  rw [predVec_swap L ps pe]

/-- Claim C5: the F1 score is invariant under swapping the predicted
start and end indices, because the predicted coverage vector marks the
span in both directions: `predVec` is symmetric in its two indices, and
hence `get_f1` returns the same score on swapped predictions. -/
theorem get_f1_swap_invariant (L : Nat) (yS yE : List (List Int))
    (ypS ypE : List Nat) (mask : List (List Bool)) :
    get_f1 L yS yE ypS ypE mask = get_f1 L yS yE ypE ypS mask ∧
    ∀ ps pe, predVec L ps pe = predVec L pe ps := by
  constructor
  · unfold get_f1
    by_cases h : yS.length = 0
    · rw [if_pos h, if_pos h]
    · rw [if_neg h, if_neg h]
      rw [show (fun i => f1_sample L (yS.getD i []) (yE.getD i [])
            (ypS.getD i 0) (ypE.getD i 0)) =
          fun i => f1_sample L (yS.getD i []) (yE.getD i [])
            (ypE.getD i 0) (ypS.getD i 0) from
        funext fun i => f1_sample_swap L _ _ _ _]
  · exact fun ps pe => predVec_swap L ps pe

/-- Claim C10: the `mask` parameter of both metric functions is accepted
but never read, so any two mask values produce identical scores. -/
theorem metrics_ignore_mask (L : Nat) (yS yE : List (List Int))
    (ypS ypE : List Nat) (mask1 mask2 : List (List Bool)) :
    get_f1 L yS yE ypS ypE mask1 = get_f1 L yS yE ypS ypE mask2 ∧
    get_exact_match yS yE ypS ypE mask1 = get_exact_match yS yE ypS ypE mask2 :=
  ⟨rfl, rfl⟩

/-!  Batch processing: `initialize_batch_processing` and `next_batch`.

`next_batch` slices the six data arrays with the same index list
`batch_permutation[start:end]`; the state and the issued index list are
the algorithmic content and are what is embedded.  The random draw
`np.random.permutation(...)` made on a wrap is supplied externally
(`fresh`), one list per call. -/

structure BatchState where
  batch_index : Nat
  max_batch_index : Nat
  batch_permutation : List Nat
  deriving Repr, DecidableEq

/-- Embedding of `Qa_model.initialize_batch_processing` in its default
mode (`permutation=None`, the mode used by `Qa_model.train`): cursor `0`
and the identity permutation `np.arange(n_samples)`. -/
def init_batch_processing (n_samples : Nat) : BatchState :=
  ⟨0, n_samples, List.range n_samples⟩

/-- Embedding of `Qa_model.next_batch`: if the cursor has reached or
passed the dataset size, reset it to `0` and install the freshly drawn
random permutation; then return the slice
`batch_permutation[batch_index : batch_index + batch_size]` and advance
the cursor by `batch_size` unconditionally. -/
def next_batch (fresh : List Nat) (batch_size : Nat) (st : BatchState) :
    List Nat × BatchState :=
  let st1 := if st.max_batch_index ≤ st.batch_index
             then { st with batch_index := 0, batch_permutation := fresh }
             else st
  ((st1.batch_permutation.drop st1.batch_index).take batch_size,
   { st1 with batch_index := st1.batch_index + batch_size })

/-- `k` successive calls of `next_batch`, collecting the issued index
lists; `i` numbers the calls so each wrap may draw a different fresh
permutation. -/
def run_batches (fresh : Nat → List Nat) (B : Nat) : Nat → Nat → BatchState →
    List (List Nat) × BatchState
  | _, 0, st => ([], st)
  | i, k + 1, st =>
      let r := next_batch (fresh i) B st
      let rest := run_batches fresh B (i + 1) k r.2
      (r.1 :: rest.1, rest.2)

theorem next_batch_no_wrap (fresh : List Nat) (B : Nat) (st : BatchState)
    (h : st.batch_index < st.max_batch_index) :
    next_batch fresh B st =
      ((st.batch_permutation.drop st.batch_index).take B,
       { st with batch_index := st.batch_index + B }) := by
  rw [next_batch, if_neg (not_le.2 h)]

theorem run_batches_no_wrap (fresh : Nat → List Nat) (B : Nat) :
    ∀ (k i j N : Nat) (p : List Nat), (∀ m, m < k → j + m * B < N) →
      (run_batches fresh B i k ⟨j, N, p⟩).2 = ⟨j + k * B, N, p⟩ ∧
      (run_batches fresh B i k ⟨j, N, p⟩).1.flatten = (p.drop j).take (k * B) ∧
      (run_batches fresh B i k ⟨j, N, p⟩).1.length = k := by
  intro k
  induction k with
  | zero => intro i j N p _; exact ⟨by simp [run_batches], by simp [run_batches], rfl⟩
  | succ k ih =>
      intro i j N p h
      have hj : j < N := by have := h 0 (by omega); omega
      have hstep := next_batch_no_wrap (fresh i) B ⟨j, N, p⟩ hj
      have hrec := ih (i + 1) (j + B) N p fun m hm => by
        have := h (m + 1) (by omega)
        have : j + (m + 1) * B = j + B + m * B := by ring
        omega
      rw [run_batches, hstep]
      refine ⟨?_, ?_, ?_⟩
      · rw [hrec.1]
        have : j + B + k * B = j + (k + 1) * B := by ring
        rw [this]
      · simp only [List.flatten_cons]
        rw [hrec.2.1, show p.drop (j + B) = (p.drop j).drop B from (List.drop_drop B j p).symm,
          ← List.take_add, show B + k * B = (k + 1) * B by ring]
      · simp only [List.length_cons]
        rw [hrec.2.2]

/-- Claim C1: for every dataset size `N > 0` and batch size `B > 0`,
starting from a cursor at `0` over any permutation `p` of `[0, N)` (the
state right after `initialize_batch_processing` or right after a wrap),
the `⌈N/B⌉` calls of one pass of `next_batch` issue index lists whose
concatenation is exactly a permutation of `[0, N)` — no index duplicated,
none skipped — even though the cursor advances by `B` unconditionally and
ends at `⌈N/B⌉ * B ≥ N`, overshooting `N`; the final batch of the pass
may contain fewer than `B` indices. -/
theorem next_batch_one_pass (N B : Nat) (p : List Nat) (fresh : Nat → List Nat)
    (hN : 0 < N) (hB : 0 < B) (hp : p.Perm (List.range N)) :
    (run_batches fresh B 0 ((N + B - 1) / B) ⟨0, N, p⟩).1.flatten.Perm (List.range N) ∧
    (run_batches fresh B 0 ((N + B - 1) / B) ⟨0, N, p⟩).1.flatten.Nodup ∧
    (run_batches fresh B 0 ((N + B - 1) / B) ⟨0, N, p⟩).2.batch_index =
      ((N + B - 1) / B) * B ∧
    N ≤ ((N + B - 1) / B) * B ∧
    (run_batches fresh B 0 ((N + B - 1) / B) ⟨0, N, p⟩).1.length = (N + B - 1) / B ∧
    (init_batch_processing N).batch_permutation.Perm (List.range N) := by
  have hplen : p.length = N := by rw [hp.length_eq, List.length_range]
  have hKB : ((N + B - 1) / B) * B ≤ N + B - 1 := Nat.div_mul_le_self _ B
  have hNK : N ≤ ((N + B - 1) / B) * B := by
    have h1 := Nat.div_add_mod (N + B - 1) B
    have h2 := Nat.mod_lt (N + B - 1) hB
    have h3 : B * ((N + B - 1) / B) = ((N + B - 1) / B) * B := Nat.mul_comm _ _
    omega
  have hcond : ∀ m, m < (N + B - 1) / B → 0 + m * B < N := by
    intro m hm
    have h4 : (m + 1) * B ≤ ((N + B - 1) / B) * B := Nat.mul_le_mul_right B (by omega)
    have h6 : (m + 1) * B = m * B + B := by ring
    omega
  obtain ⟨hst, hflat, hlen⟩ := run_batches_no_wrap fresh B ((N + B - 1) / B) 0 0 N p hcond
  rw [List.drop_zero] at hflat
  have hp2 : p.take (((N + B - 1) / B) * B) = p := List.take_of_length_le (by omega)
  refine ⟨?_, ?_, ?_, hNK, hlen, ?_⟩
  · rw [hflat, hp2]
    exact hp
  · rw [hflat, hp2]
    exact hp.symm.nodup (List.nodup_range N)
  · rw [hst]
    simp
  · rw [init_batch_processing]

theorem next_batch_one_pass_witness :
    (0 < 5 ∧ 0 < 2 ∧ ([2, 0, 4, 1, 3] : List Nat).Perm (List.range 5)) ∧
    ((run_batches (fun _ => []) 2 0 3 ⟨0, 5, [2, 0, 4, 1, 3]⟩).1.flatten.Perm
        (List.range 5) ∧
     (run_batches (fun _ => []) 2 0 3 ⟨0, 5, [2, 0, 4, 1, 3]⟩).1.flatten.Nodup ∧
     (run_batches (fun _ => []) 2 0 3 ⟨0, 5, [2, 0, 4, 1, 3]⟩).2.batch_index = 6 ∧
     5 ≤ 6 ∧
     (run_batches (fun _ => []) 2 0 3 ⟨0, 5, [2, 0, 4, 1, 3]⟩).1.length = 3 ∧
     (init_batch_processing 5).batch_permutation.Perm (List.range 5)) :=
  ⟨⟨by decide, by decide, by decide⟩,
   next_batch_one_pass 5 2 [2, 0, 4, 1, 3] (fun _ => []) (by decide) (by decide) (by decide)⟩

/-!  The per-epoch metric windowing of `Qa_model.train`.

Inside one epoch the loop runs `int(n_samples / batch_size)` steps; every
step appends one scalar to each rolling accumulator (`losses`, `EMs`,
`f1s`, `grad_norms` — all four are appended together, so they always have
equal length and share the single length check `len(losses) >= 20`); when
an accumulator reaches 20 entries its `np.mean` is appended to the
epoch-level history and the accumulator is emptied.  The fold below is
that loop for one scalar stream; `Qa_model.train` applies it to each of
the four streams with the shared counter. -/

def mean (l : List ℚ) : ℚ := l.sum / (l.length : ℚ)

/-- One training step's bookkeeping: append the step's scalar to the
rolling accumulator; if the accumulator has reached 20 entries, append
its mean to the epoch-level history and clear it. -/
def flush_window (st : List ℚ × List ℚ) (x : ℚ) : List ℚ × List ℚ :=
  let acc := st.1 ++ [x]
  if 20 ≤ acc.length then ([], st.2 ++ [mean acc]) else (acc, st.2)

/-- The number of training steps of one epoch:
`trange(int(n_samples / batch_size))`. -/
def train_epoch_steps (n_samples batch_size : Nat) : Nat := n_samples / batch_size

/-- One epoch's accumulator/history bookkeeping over the stream of
per-step scalars `score 0, score 1, ...`: the accumulators start empty
each epoch and the fold returns the final (dropped) accumulator and the
history appended during the epoch. -/
def train_epoch (n_samples batch_size : Nat) (score : Nat → ℚ) : List ℚ × List ℚ :=
  ((List.range (train_epoch_steps n_samples batch_size)).map score).foldl flush_window ([], [])

/-- The first `k` disjoint blocks of 20 consecutive elements of a list. -/
def chunksAux : Nat → List ℚ → List (List ℚ)
  | 0, _ => []
  | k + 1, xs => xs.take 20 :: chunksAux k (xs.drop 20)

/-- All complete blocks of 20 consecutive elements of a list; a trailing
block of fewer than 20 elements is not included. -/
def chunks20 (xs : List ℚ) : List (List ℚ) := chunksAux (xs.length / 20) xs

theorem foldl_flush_window_short :
    ∀ (xs acc hist : List ℚ), acc.length + xs.length < 20 →
      xs.foldl flush_window (acc, hist) = (acc ++ xs, hist) := by
  intro xs
  induction xs with
  | nil => intro acc hist _; simp
  | cons x xs ih =>
      intro acc hist h
      simp only [List.length_cons] at h
      rw [List.foldl_cons,
        show flush_window (acc, hist) x = (acc ++ [x], hist) from by
          rw [flush_window, if_neg (by simp only [List.length_append, List.length_singleton]; omega)],
        ih (acc ++ [x]) hist (by simp only [List.length_append, List.length_singleton]; omega)]
      simp

theorem foldl_flush_window_block :
    ∀ (xs acc hist : List ℚ), acc.length < 20 → 20 ≤ acc.length + xs.length →
      xs.foldl flush_window (acc, hist) =
        (xs.drop (20 - acc.length)).foldl flush_window
          ([], hist ++ [mean (acc ++ xs.take (20 - acc.length))]) := by
  intro xs
  induction xs with
  | nil => intro acc hist h1 h2; simp at h2; omega
  | cons x xs ih =>
      intro acc hist h1 h2
      simp only [List.length_cons] at h2
      rcases Nat.lt_or_ge (acc.length + 1) 20 with hc | hc
      · rw [List.foldl_cons,
          show flush_window (acc, hist) x = (acc ++ [x], hist) from by
            rw [flush_window,
              if_neg (by simp only [List.length_append, List.length_singleton]; omega)],
          ih (acc ++ [x]) hist (by simp only [List.length_append, List.length_singleton]; omega)
            (by simp only [List.length_append, List.length_singleton]; omega)]
        have e1 : 20 - acc.length = (20 - (acc ++ [x]).length) + 1 := by
          simp only [List.length_append, List.length_singleton]
          omega
        rw [e1, List.take_succ_cons, List.drop_succ_cons]
        simp
      · rw [List.foldl_cons,
          show flush_window (acc, hist) x = ([], hist ++ [mean (acc ++ [x])]) from by
            rw [flush_window,
              if_pos (by simp only [List.length_append, List.length_singleton]; omega)]]
        have e1 : 20 - acc.length = 1 := by omega
        rw [e1, List.take_succ_cons, List.drop_succ_cons, List.take_zero]
        simp

theorem foldl_flush_window_spec :
    ∀ (k : Nat) (xs hist : List ℚ), xs.length ≤ k →
      xs.foldl flush_window ([], hist) =
        (xs.drop (20 * (xs.length / 20)), hist ++ (chunks20 xs).map mean) := by
  intro k
  induction k with
  | zero =>
      intro xs hist h
      have : xs = [] := List.eq_nil_of_length_eq_zero (by omega)
      subst this
      simp [chunks20, chunksAux]
  | succ k ih =>
      intro xs hist h
      rcases Nat.lt_or_ge xs.length 20 with hs | hs
      · rw [foldl_flush_window_short xs [] hist (by simpa using hs)]
        rw [chunks20, Nat.div_eq_of_lt hs]
        simp [chunksAux]
      · rw [foldl_flush_window_block xs [] hist (by norm_num) (by simpa using hs)]
        simp only [List.length_nil, Nat.sub_zero, List.nil_append]
        rw [ih (xs.drop 20) (hist ++ [mean (xs.take 20)]) (by simp; omega)]
        have hlen : (xs.drop 20).length = xs.length - 20 := by simp
        have hdiv : xs.length / 20 = (xs.length - 20) / 20 + 1 :=
          Nat.div_eq_sub_div (by norm_num) hs
        have h1 : 20 + 20 * ((xs.length - 20) / 20) = 20 * (xs.length / 20) := by
          rw [hdiv]
          ring
        have h2 : chunks20 xs = xs.take 20 :: chunks20 (xs.drop 20) := by
          rw [chunks20, hdiv, chunksAux, chunks20, hlen]
        rw [hlen, h2, List.drop_drop, h1]
        simp

theorem chunksAux_length : ∀ (k : Nat) (xs : List ℚ), (chunksAux k xs).length = k := by
  intro k
  induction k with
  | zero => intro xs; rfl
  | succ k ih => intro xs; simp [chunksAux, ih]

theorem chunksAux_map_length :
    ∀ (k : Nat) (xs : List ℚ), 20 * k ≤ xs.length →
      (chunksAux k xs).map List.length = List.replicate k 20 := by
  intro k
  induction k with
  | zero => intro xs _; rfl
  | succ k ih =>
      intro xs h
      rw [chunksAux, List.map_cons, List.replicate_succ,
        ih (xs.drop 20) (by simp; omega),
        List.length_take, Nat.min_eq_left (by omega)]

/-- Claim C7: in every epoch the training loop runs exactly
`⌊n_samples / batch_size⌋` steps; after every 20 steps the mean of the 20
accumulated per-step scalars is appended to the epoch-level history and
the accumulator is emptied, and a final window of fewer than 20 steps is
left in the accumulator at epoch end without being flushed into the
history: the history is exactly the means of the `⌊steps/20⌋` complete
20-step blocks of the epoch's score stream, each block of length
exactly 20. -/
theorem train_windowing (n_samples batch_size : Nat) (score : Nat → ℚ) :
    train_epoch_steps n_samples batch_size = n_samples / batch_size ∧
    train_epoch n_samples batch_size score =
      (((List.range (n_samples / batch_size)).map score).drop
         (20 * ((n_samples / batch_size) / 20)),
       (chunks20 ((List.range (n_samples / batch_size)).map score)).map mean) ∧
    (chunks20 ((List.range (n_samples / batch_size)).map score)).length =
      (n_samples / batch_size) / 20 ∧
    (chunks20 ((List.range (n_samples / batch_size)).map score)).map List.length =
      List.replicate ((n_samples / batch_size) / 20) 20 := by
  have hlen : ((List.range (n_samples / batch_size)).map score).length =
      n_samples / batch_size := by simp
  refine ⟨rfl, ?_, ?_, ?_⟩
  · rw [train_epoch, train_epoch_steps,
      foldl_flush_window_spec ((List.range (n_samples / batch_size)).map score).length _ _
        (le_refl _), hlen]
    simp
  · rw [chunks20, hlen, chunksAux_length]
  · rw [chunks20, hlen]
    exact chunksAux_map_length _ _ (by rw [hlen]; exact Nat.mul_div_le _ 20)

/-!  Word-embedding loading in `Qa_model.load_and_preprocess_data`.  -/

/-- Embedding of the word-vector part of `Qa_model.load_and_preprocess_data`:
`null_wordvec_index = WordEmbeddingMatrix.shape[0]` is computed first, then
`np.vstack((WordEmbeddingMatrix, np.zeros(100)))` appends one all-zero
row of dimension 100.  Returns the extended matrix together with the
recorded null-word-vector index. -/
def load_embedding (w : List (List ℚ)) : List (List ℚ) × Nat :=
  let null_wordvec_index := w.length
  (w ++ [List.replicate 100 0], null_wordvec_index)

/-- The four `read_and_pad` calls of `load_and_preprocess_data` all pass
`null_wordvec_index` as the pad value; this is that composition for one
id file. -/
def load_and_pad_ids (w : List (List ℚ)) (lines : List (List Int)) (max_length : Nat) :
    List (List Int) × List (List Bool) :=
  read_and_pad lines max_length ((load_embedding w).2 : Int)

theorem getD_append_last {α : Type} (w : List α) (z d : α) :
    (w ++ [z]).getD w.length d = z := by
  induction w with
  | nil => rfl
  | cons x xs ih =>
      simp only [List.cons_append, List.length_cons, List.getD_cons_succ]
      exact ih

/-- Claim C8: loading a pretrained word-vector table with `V` rows appends
exactly one all-zero row (dimension 100, the table's column count), and
the padding index recorded for every subsequent sequence-padding call
equals `V`, the row count computed before the zero row is appended — so
the pad index refers exactly to the appended zero row. -/
theorem load_embedding_spec (w : List (List ℚ)) (lines : List (List Int)) (max_length : Nat) :
    (load_embedding w).1 = w ++ [List.replicate 100 (0 : ℚ)] ∧
    (load_embedding w).2 = w.length ∧
    (load_embedding w).1.length = w.length + 1 ∧
    (load_embedding w).1.getD (load_embedding w).2 [] = List.replicate 100 (0 : ℚ) ∧
    (load_embedding w).1.take w.length = w ∧
    load_and_pad_ids w lines max_length = read_and_pad lines max_length (w.length : Int) :=
  ⟨rfl, rfl, by simp [load_embedding], getD_append_last w _ [],
   by simp [load_embedding], rfl⟩
